import Mathlib

/-!
Shallow embedding of the D-NeRF-style training/rendering driver
(src/run_dgdnerf.py) for verification of the specification's claims.

Machine floats are modelled by exact rationals; the real-valued square
root and power appearing in `depth_std_map` and the learning-rate decay
are modelled with `Real.sqrt` and real exponentiation.
-/

namespace DGDNeRF

abbrev Vec3 := ℚ × ℚ × ℚ

/-! ## Dynamic radiance network: canonical-time deformation (claim C1)

The network classes themselves live in `run_dgdnerf_helpers.py`, which is
not part of the reviewed source tree; only their construction in
`create_nerf` is.  The deformation stage is therefore modelled from the
spec, while the `zero_canonical` wiring is translated from `create_nerf`.
-/

/-- From `create_nerf` (run_dgdnerf.py line 349): the network is built with
`zero_canonical = not args.not_zero_canonical`. -/
def create_nerf_zero_canonical (not_zero_canonical : Bool) : Bool :=
  !not_zero_canonical

/-- Modelled from the spec: the deformation stage of the dynamic radiance
network (its class is defined in `run_dgdnerf_helpers.py`, which is not under
src/).  Per spec section 4.5, the stage maps (position, time) to a 3-D
position delta "with the convention that the canonical time (t = 0, or a
configurable not_zero_canonical override) produces an exact zero delta rather
than a learned near-zero value — enforced structurally".  `learned_dx` is the
learned deformation sub-network output used at all other times. -/
def deformation_delta (zero_canonical : Bool) (learned_dx : Vec3 → ℚ → Vec3)
    (x : Vec3) (t : ℚ) : Vec3 :=
  if t = 0 ∧ zero_canonical = true then ((0 : ℚ), (0 : ℚ), (0 : ℚ)) else learned_dx x t

/-! ## Learning-rate schedule (claim C5) -/

/-- Learning-rate update from `train` (run_dgdnerf.py lines 1210-1214):
`decay_rate = 0.1`, `decay_steps = args.lrate_decay * 1000`,
`new_lrate = args.lrate * (decay_rate ** (global_step / decay_steps))`.
Python's `/` is true division, so the exponent is real-valued. -/
noncomputable def new_lrate (lrate : ℝ) (lrate_decay global_step : ℕ) : ℝ :=
  lrate * (1 / 10 : ℝ) ^ ((global_step : ℝ) / ((lrate_decay : ℝ) * 1000))

/-! ## Training-loop ray sampling: global-batching abort (claim C7) -/

/-- From `train` (run_dgdnerf.py line 1021): `use_batching = not args.no_batching`. -/
def use_batching_of (no_batching : Bool) : Bool :=
  !no_batching

/-- Ray-sampling step at the top of the training-loop body
(run_dgdnerf.py lines 1062-1063): `if use_batching: raise
NotImplementedError("Time not implemented")`; otherwise the step proceeds by
sampling rays from one random training image. -/
def ray_sampling_step (use_batching : Bool) : Except String Unit :=
  if use_batching then Except.error "Time not implemented" else Except.ok ()

/-! ## run_network time-uniqueness assertion (claim C8) -/

inductive TimeCheck where
  | ok : TimeCheck
  | assertionError : TimeCheck
deriving DecidableEq

/-- Precondition check at the top of `run_network` (run_dgdnerf.py lines
67-69): `if not use_latent_codes_as_time: assert
len(torch.unique(frame_time)) == 1`.  `frame_time` is modelled as the list of
per-point scalar time values; `torch.unique` counts its distinct values. -/
def run_network_time_check (use_latent_codes_as_time : Bool)
    (frame_time : List ℚ) : TimeCheck :=
  if use_latent_codes_as_time then .ok
  else if frame_time.dedup.length = 1 then .ok
  else .assertionError

/-- Helper: a nonempty constant list dedups to a singleton. -/
theorem dedup_of_constant (v : ℚ) :
    ∀ (l : List ℚ), l ≠ [] → (∀ x ∈ l, x = v) → l.dedup = [v] := by
  intro l
  induction l with
  | nil => intro h; exact absurd rfl h
  | cons a t ih =>
    intro _ hall
    have ha : a = v := hall a (List.mem_cons_self a t)
    subst ha
    cases t with
    | nil => simp
    | cons b t2 =>
      have hb : b = a := by
        have := hall b (by simp)
        have hba := hall a (List.mem_cons_self a _)
        simp [this, hba]
      have hmem : a ∈ b :: t2 := by simp [hb]
      rw [List.dedup_cons_of_mem hmem]
      exact ih (by simp) (fun x hx => hall x (List.mem_cons_of_mem a hx))

/-! ## Claim theorems (first group) -/

/-- C1: For every query position, the deformation stage evaluated at the
canonical time t = 0 (the `not_zero_canonical` override not being set, so
`create_nerf` passes `zero_canonical = true`) returns the exact zero position
delta, for every learned deformation sub-network. -/
theorem canonical_time_zero_delta :
    ∀ (learned_dx : Vec3 → ℚ → Vec3) (x : Vec3),
      deformation_delta (create_nerf_zero_canonical false) learned_dx x 0 =
        ((0 : ℚ), (0 : ℚ), (0 : ℚ)) := by
  intro learned_dx x
  simp [deformation_delta, create_nerf_zero_canonical]

/-- C5: the learning rate at any global step equals
`base_lr * 0.1 ^ (global_step / (lrate_decay * 1000))`; at step 0 it equals
the base rate exactly, and with base rate 5e-4 and `lrate_decay = 250` it
equals 5e-5 at step 250000. -/
theorem lrate_decay_schedule :
    (∀ (l : ℝ) (d g : ℕ),
        new_lrate l d g = l * (1 / 10 : ℝ) ^ ((g : ℝ) / ((d : ℝ) * 1000))) ∧
    new_lrate (5 / 10 ^ 4) 250 0 = 5 / 10 ^ 4 ∧
    new_lrate (5 / 10 ^ 4) 250 250000 = 5 / 10 ^ 5 := by
  refine ⟨fun l d g => rfl, ?_, ?_⟩
  · have h0 : ((0 : ℕ) : ℝ) / (((250 : ℕ) : ℝ) * 1000) = 0 := by norm_num
    rw [new_lrate, h0, Real.rpow_zero, mul_one]
  · have h1 : ((250000 : ℕ) : ℝ) / (((250 : ℕ) : ℝ) * 1000) = 1 := by norm_num
    rw [new_lrate, h1, Real.rpow_one]
    norm_num

/-- C7: whenever global ray batching is selected (`no_batching` false), the
training-loop ray-sampling step raises `NotImplementedError` (a hard abort,
modelled as an `Except.error`), not a clean return. -/
theorem use_batching_raises :
    ray_sampling_step (use_batching_of false) =
      Except.error "Time not implemented" ∧
    ray_sampling_step (use_batching_of false) ≠ Except.ok () := by
  constructor
  · rfl
  · intro h
    simp [ray_sampling_step, use_batching_of] at h

/-- C8: when per-frame latent codes are not in use, `run_network` asserts
that all query points carry one scalar time: any call whose time tensor holds
two distinct values fails the assertion, a call with a single shared value
passes, and with `use_latent_codes_as_time` the check is skipped. -/
theorem run_network_time_assertion :
    (∀ (ft : List ℚ) (a b : ℚ), a ∈ ft → b ∈ ft → a ≠ b →
        run_network_time_check false ft = .assertionError) ∧
    (∀ (ft : List ℚ) (v : ℚ), ft ≠ [] → (∀ x ∈ ft, x = v) →
        run_network_time_check false ft = .ok) ∧
    (∀ ft : List ℚ, run_network_time_check true ft = .ok) := by
  refine ⟨?_, ?_, fun ft => rfl⟩
  · intro ft a b ha hb hab
    rw [run_network_time_check]
    simp only [Bool.false_eq_true, if_false]
    rw [if_neg]
    intro hlen
    obtain ⟨c, hc⟩ := List.length_eq_one.mp hlen
    have ha2 : a = c := by
      have := List.mem_dedup.mpr ha
      rw [hc] at this; simpa using this
    have hb2 : b = c := by
      have := List.mem_dedup.mpr hb
      rw [hc] at this; simpa using this
    exact hab (ha2.trans hb2.symm)
  · intro ft v hne hall
    rw [run_network_time_check]
    simp [dedup_of_constant v ft hne hall]

/-- C8 witness: concrete calls exercising each branch of the assertion. -/
theorem run_network_time_assertion_witness :
    run_network_time_check false [(1 : ℚ), 2] = .assertionError ∧
    run_network_time_check false [(3 : ℚ), 3] = .ok ∧
    run_network_time_check true [(1 : ℚ), 2] = .ok :=
  ⟨run_network_time_assertion.1 [(1 : ℚ), 2] 1 2 (by decide) (by decide) (by decide),
   run_network_time_assertion.2.1 [(3 : ℚ), 3] 3 (by decide) (by decide),
   run_network_time_assertion.2.2 [(1 : ℚ), 2]⟩

/-! ## Volume rendering integrator, raw2outputs (claims C2, C4, C10) -/

/-- Stabilizer constant 1e-10 from raw2outputs (run_dgdnerf.py line 491). -/
def eps1e10 : ℚ := 1 / 10 ^ 10

theorem eps1e10_pos : 0 < eps1e10 := by norm_num [eps1e10]

/-- Inclusive cumulative product, modelling `torch.cumprod(·, -1)`. -/
def cumprod : List ℚ → List ℚ
  | [] => []
  | x :: xs => x :: (cumprod xs).map (fun y => x * y)

/-- Per-sample compositing weights from raw2outputs (run_dgdnerf.py line
491): `weights = alpha * torch.cumprod(torch.cat([torch.ones(..), 1.-alpha +
1e-10], -1), -1)[:, :-1]` — a leading one is prepended, the inclusive
cumulative product is taken, and its trailing element dropped. -/
def raw2outputs_weights (alphas : List ℚ) : List ℚ :=
  List.zipWith (fun a t => a * t) alphas
    ((cumprod (1 :: alphas.map (fun a => 1 - a + eps1e10))).dropLast)

/-- Generalization of `raw2outputs_weights` with an arbitrary accumulated
transmittance `p` in place of the leading one, to support induction. -/
def weights_aux (p : ℚ) (alphas : List ℚ) : List ℚ :=
  List.zipWith (fun a t => a * t) alphas
    ((cumprod (p :: alphas.map (fun a => 1 - a + eps1e10))).dropLast)

theorem raw2outputs_weights_eq_aux (alphas : List ℚ) :
    raw2outputs_weights alphas = weights_aux 1 alphas := rfl

theorem cumprod_cons_map (c x : ℚ) (t : List ℚ) :
    (cumprod (x :: t)).map (fun y => c * y) = cumprod ((c * x) :: t) := by
  simp only [cumprod, List.map_cons, List.map_map]
  have hfun : ((fun y => c * y) ∘ fun y => x * y) = fun y => c * x * y := by
    funext y; simp [Function.comp]; ring
  rw [hfun]

theorem weights_aux_cons (p a : ℚ) (l : List ℚ) :
    weights_aux p (a :: l) = a * p :: weights_aux (p * (1 - a + eps1e10)) l := by
  have hne : ((cumprod ((1 - a + eps1e10) :: l.map (fun x => 1 - x + eps1e10))).map
      (fun y => p * y)) ≠ [] := by simp [cumprod]
  unfold weights_aux
  rw [List.map_cons]
  rw [show cumprod (p :: (1 - a + eps1e10) :: l.map (fun x => 1 - x + eps1e10)) =
        p :: (cumprod ((1 - a + eps1e10) :: l.map (fun x => 1 - x + eps1e10))).map
          (fun y => p * y) from rfl]
  rw [List.dropLast_cons_of_ne_nil hne, cumprod_cons_map]
  rfl

theorem one_le_one_add_eps_pow (n : ℕ) : (1 : ℚ) ≤ (1 + eps1e10) ^ n := by
  induction n with
  | zero => norm_num
  | succ k ih =>
    rw [pow_succ]
    nlinarith [eps1e10_pos]

theorem weights_aux_nonneg :
    ∀ (l : List ℚ) (p : ℚ), 0 ≤ p → (∀ a ∈ l, 0 ≤ a ∧ a ≤ 1) →
      ∀ w ∈ weights_aux p l, 0 ≤ w := by
  intro l
  induction l with
  | nil => intro p _ _ w hw; simp [weights_aux] at hw
  | cons a t ih =>
    intro p hp hb w hw
    rw [weights_aux_cons] at hw
    have ha := hb a (List.mem_cons_self a t)
    rcases List.mem_cons.mp hw with h | h
    · subst h; exact mul_nonneg ha.1 hp
    · refine ih (p * (1 - a + eps1e10))
        (mul_nonneg hp (by nlinarith [eps1e10_pos, ha.2]))
        (fun x hx => hb x (List.mem_cons_of_mem a hx)) w h

theorem prod_factors_nonneg (l : List ℚ) (hb : ∀ a ∈ l, 0 ≤ a ∧ a ≤ 1) :
    0 ≤ (l.map (fun a => 1 - a + eps1e10)).prod := by
  induction l with
  | nil => norm_num
  | cons a t ih =>
    simp only [List.map_cons, List.prod_cons]
    have ha := hb a (List.mem_cons_self a t)
    have ht := ih (fun x hx => hb x (List.mem_cons_of_mem a hx))
    nlinarith [eps1e10_pos, ha.2]

theorem weights_aux_sum_le :
    ∀ (l : List ℚ) (p : ℚ), 0 ≤ p → (∀ a ∈ l, 0 ≤ a ∧ a ≤ 1) →
      (weights_aux p l).sum + p * (l.map (fun a => 1 - a + eps1e10)).prod ≤
        p * (1 + eps1e10) ^ l.length := by
  intro l
  induction l with
  | nil => intro p hp _; simp [weights_aux]
  | cons a t ih =>
    intro p hp hb
    rw [weights_aux_cons]
    simp only [List.sum_cons, List.map_cons, List.prod_cons, List.length_cons]
    have ha := hb a (List.mem_cons_self a t)
    have hfa : 0 ≤ 1 - a + eps1e10 := by nlinarith [eps1e10_pos, ha.2]
    have hp2 : 0 ≤ p * (1 - a + eps1e10) := mul_nonneg hp hfa
    have IH := ih (p * (1 - a + eps1e10)) hp2
      (fun x hx => hb x (List.mem_cons_of_mem a hx))
    have hpow := one_le_one_add_eps_pow t.length
    have key : a * p + p * (1 - a + eps1e10) * (1 + eps1e10) ^ t.length ≤
        p * (1 + eps1e10) ^ (t.length + 1) := by
      rw [pow_succ]
      nlinarith [mul_nonneg (mul_nonneg hp ha.1) (sub_nonneg.mpr hpow)]
    nlinarith [IH, key]

theorem pow_one_add_eps_le (n : ℕ) (h : 2 * (n : ℚ) * eps1e10 ≤ 1) :
    (1 + eps1e10) ^ n ≤ 1 + 2 * (n : ℚ) * eps1e10 := by
  induction n with
  | zero => norm_num
  | succ k ih =>
    have hcast : ((k + 1 : ℕ) : ℚ) = (k : ℚ) + 1 := by push_cast; ring
    rw [hcast] at h ⊢
    have hk : 2 * (k : ℚ) * eps1e10 ≤ 1 := by nlinarith [eps1e10_pos]
    have IH := ih hk
    rw [pow_succ]
    have step : (1 + eps1e10) ^ k * (1 + eps1e10) ≤
        (1 + 2 * (k : ℚ) * eps1e10) * (1 + eps1e10) := by
      nlinarith [eps1e10_pos, IH]
    nlinarith [eps1e10_pos, step, hk]

theorem weights_aux_getD :
    ∀ (l : List ℚ) (p : ℚ) (i : ℕ), i < l.length →
      (weights_aux p l).getD i 0 =
        l.getD i 0 * p * ((l.take i).map (fun a => 1 - a + eps1e10)).prod := by
  intro l
  induction l with
  | nil => intro p i h; simp at h
  | cons a t ih =>
    intro p i h
    rw [weights_aux_cons]
    cases i with
    | zero => simp
    | succ j =>
      have hj : j < t.length := by simpa using h
      simp only [List.getD_cons_succ, List.take_succ_cons, List.map_cons,
        List.prod_cons]
      rw [ih (p * (1 - a + eps1e10)) j hj]
      ring

/-- C2: for every alpha sequence with each alpha in the unit interval (and at
most 50000 samples per ray, which keeps the 1e-10 stabilizer's accumulated
excess below the stated 1e-5 tolerance), raw2outputs computes
`weight_i = alpha_i * prod of (1 - alpha_j + 1e-10) for j < i`, every weight
is nonnegative, and the weights sum to at most 1 + 1e-5. -/
theorem raw2outputs_weight_invariant (alphas : List ℚ)
    (hb : ∀ a ∈ alphas, 0 ≤ a ∧ a ≤ 1) (hlen : alphas.length ≤ 50000) :
    (∀ i, i < alphas.length →
        (raw2outputs_weights alphas).getD i 0 =
          alphas.getD i 0 *
            ((alphas.take i).map (fun a => 1 - a + eps1e10)).prod) ∧
    (∀ w ∈ raw2outputs_weights alphas, 0 ≤ w) ∧
    (raw2outputs_weights alphas).sum ≤ 1 + 1 / 10 ^ 5 := by
  refine ⟨?_, ?_, ?_⟩
  · intro i hi
    rw [raw2outputs_weights_eq_aux, weights_aux_getD alphas 1 i hi]
    ring
  · rw [raw2outputs_weights_eq_aux]
    exact weights_aux_nonneg alphas 1 (by norm_num) hb
  · have h1 := weights_aux_sum_le alphas 1 (by norm_num) hb
    have hprod := prod_factors_nonneg alphas hb
    have hn : (alphas.length : ℚ) ≤ 50000 := by exact_mod_cast hlen
    have h2 : 2 * (alphas.length : ℚ) * eps1e10 ≤ 1 / 10 ^ 5 := by
      rw [eps1e10]; nlinarith
    have h3 := pow_one_add_eps_le alphas.length (le_trans h2 (by norm_num))
    rw [raw2outputs_weights_eq_aux]
    nlinarith [h1, hprod, h3, h2]

/-- C2 witness: a concrete alpha sequence. -/
theorem raw2outputs_weight_invariant_witness :
    (∀ w ∈ raw2outputs_weights [1, 0, 1], 0 ≤ w) ∧
    (raw2outputs_weights [1, 0, 1]).sum ≤ 1 + 1 / 10 ^ 5 :=
  ⟨(raw2outputs_weight_invariant [1, 0, 1] (by decide) (by decide)).2.1,
   (raw2outputs_weight_invariant [1, 0, 1] (by decide) (by decide)).2.2⟩

/-- Predicted depth from raw2outputs (run_dgdnerf.py line 495):
`depth_map = sum(weights * z_vals)`. -/
def depth_map (weights z_vals : List ℚ) : ℚ :=
  (List.zipWith (fun w z => w * z) weights z_vals).sum

/-- Accumulated opacity from raw2outputs (run_dgdnerf.py line 498):
`acc_map = sum(weights)`. -/
def acc_map (weights : List ℚ) : ℚ :=
  weights.sum

/-- Radicand of the depth standard deviation from raw2outputs
(run_dgdnerf.py line 496): the code computes
`depth_std_map = sqrt(((z_vals - depth_map)^2 * weights).sum + 1e-6)`;
this definition is the quantity under the square root, so that
`depth_std_map = Real.sqrt (depth_std_sq weights z_vals)`. -/
def depth_std_sq (weights z_vals : List ℚ) : ℚ :=
  (List.zipWith (fun z w => (z - depth_map weights z_vals) ^ 2 * w)
    z_vals weights).sum + 1 / 10 ^ 6

/-- Disparity from raw2outputs (run_dgdnerf.py line 497):
`disp_map = 1 / max(1e-10, depth_map / sum(weights))`. -/
def disp_map (weights z_vals : List ℚ) : ℚ :=
  1 / max (1 / 10 ^ 10) (depth_map weights z_vals / acc_map weights)

/-- Weight vector putting the entire unit weight mass on one sample: k zeros,
a single one, then m zeros. -/
def onehot_weights (k m : ℕ) : List ℚ :=
  List.replicate k 0 ++ 1 :: List.replicate m 0

theorem sum_zipWith_replicate_zero_left (g : ℚ → ℚ → ℚ) (hg : ∀ z, g 0 z = 0) :
    ∀ (k : ℕ) (t : List ℚ), (List.zipWith g (List.replicate k 0) t).sum = 0 := by
  intro k
  induction k with
  | zero => intro t; simp
  | succ j ih =>
    intro t
    cases t with
    | nil => simp
    | cons b t2 => simp [List.replicate_succ, hg, ih t2]

theorem sum_zipWith_replicate_zero_right (g : ℚ → ℚ → ℚ) (hg : ∀ z, g z 0 = 0) :
    ∀ (k : ℕ) (t : List ℚ), (List.zipWith g t (List.replicate k 0)).sum = 0 := by
  intro k
  induction k with
  | zero => intro t; simp
  | succ j ih =>
    intro t
    cases t with
    | nil => simp
    | cons b t2 => simp [List.replicate_succ, hg, ih t2]

theorem drop_eq_getD_cons :
    ∀ (z : List ℚ) (k : ℕ), k < z.length →
      z.drop k = z.getD k 0 :: z.drop (k + 1) := by
  intro z
  induction z with
  | nil => intro k h; simp at h
  | cons a t ih =>
    intro k h
    cases k with
    | zero => simp
    | succ j => simpa [List.getD_cons_succ] using ih j (by simpa using h)

theorem depth_map_onehot (k m : ℕ) (z : List ℚ) (hz : z.length = k + 1 + m) :
    depth_map (onehot_weights k m) z = z.getD k 0 := by
  have hk : k < z.length := by omega
  have hlen : (List.replicate k (0 : ℚ)).length = (z.take k).length := by
    simp [List.length_take]; omega
  rw [depth_map, onehot_weights]
  conv_lhs => rw [show z = z.take k ++ z.drop k from (List.take_append_drop k z).symm]
  rw [List.zipWith_append _ _ _ _ _ hlen, List.sum_append,
    sum_zipWith_replicate_zero_left (fun w z => w * z) (fun x => zero_mul x) k
      (z.take k),
    drop_eq_getD_cons z k hk]
  simp only [List.zipWith_cons_cons, List.sum_cons,
    sum_zipWith_replicate_zero_left (fun w z => w * z) (fun x => zero_mul x) m
      (z.drop (k + 1))]
  ring

theorem depth_std_sq_onehot (k m : ℕ) (z : List ℚ) (hz : z.length = k + 1 + m) :
    depth_std_sq (onehot_weights k m) z = 1 / 10 ^ 6 := by
  have hk : k < z.length := by omega
  have hlen : (z.take k).length = (List.replicate k (0 : ℚ)).length := by
    simp [List.length_take]; omega
  have hzero : ∀ d : ℚ, d = z.getD k 0 →
      (List.zipWith (fun zi w => (zi - d) ^ 2 * w) z (onehot_weights k m)).sum = 0 := by
    intro d hd2
    rw [onehot_weights]
    conv_lhs => rw [show z = z.take k ++ z.drop k from (List.take_append_drop k z).symm]
    rw [List.zipWith_append _ _ _ _ _ hlen, List.sum_append,
      sum_zipWith_replicate_zero_right (fun zi w => (zi - d) ^ 2 * w)
        (fun x => mul_zero ((x - d) ^ 2)) k (z.take k),
      drop_eq_getD_cons z k hk]
    simp only [List.zipWith_cons_cons, List.sum_cons,
      sum_zipWith_replicate_zero_right (fun zi w => (zi - d) ^ 2 * w)
        (fun x => mul_zero ((x - d) ^ 2)) m (z.drop (k + 1))]
    rw [← hd2]
    ring
  rw [depth_std_sq, depth_map_onehot k m z hz, hzero (z.getD k 0) rfl]
  norm_num

theorem sum_zipWith_sq_mul_nonneg (d : ℚ) :
    ∀ (z w : List ℚ), (∀ x ∈ w, 0 ≤ x) →
      0 ≤ (List.zipWith (fun zi wi => (zi - d) ^ 2 * wi) z w).sum := by
  intro z
  induction z with
  | nil => intro w _; simp
  | cons a t ih =>
    intro w hw
    cases w with
    | nil => simp
    | cons b w2 =>
      simp only [List.zipWith_cons_cons, List.sum_cons]
      have h1 : 0 ≤ (a - d) ^ 2 * b :=
        mul_nonneg (sq_nonneg _) (hw b (List.mem_cons_self b w2))
      have h2 := ih w2 (fun x hx => hw x (List.mem_cons_of_mem b hx))
      linarith

/-- C4 counterexample: with the whole weight mass (weight 1) on the single
sample at depth 2, the predicted depth equals that sample's z value, yet the
depth standard deviation is sqrt(1e-6) = 1e-3, not 0, because of the 1e-6
stabilizer under the square root. -/
theorem depth_std_concentrated_counterexample :
    depth_std_sq [1] [2] = 1 / 10 ^ 6 ∧
    Real.sqrt ((depth_std_sq [1] [2] : ℚ) : ℝ) = 1 / 1000 ∧
    (1 / 1000 : ℝ) ≠ 0 := by
  have h1 : depth_std_sq [1] [2] = 1 / 10 ^ 6 := by
    norm_num [depth_std_sq, depth_map]
  refine ⟨h1, ?_, by norm_num⟩
  rw [h1]
  have h2 : (((1 / 10 ^ 6 : ℚ) : ℝ)) = (1 / 1000 : ℝ) ^ 2 := by push_cast; norm_num
  rw [h2, Real.sqrt_sq (by norm_num : (0 : ℝ) ≤ 1 / 1000)]

/-- C4 amended: for nonnegative weights the depth-std radicand is at least
1e-6, so depth_std_map = sqrt(radicand) is nonnegative — indeed strictly
positive — for every ray; and when the weight mass is concentrated entirely
(weight 1) on a single sample the predicted depth equals that sample's z
value and depth_std_map equals exactly sqrt(1e-6) = 1e-3 (not 0). -/
theorem depth_std_nonneg_and_concentrated :
    (∀ (w z : List ℚ), (∀ x ∈ w, 0 ≤ x) →
        (1 / 10 ^ 6 : ℚ) ≤ depth_std_sq w z ∧
        0 ≤ Real.sqrt ((depth_std_sq w z : ℚ) : ℝ) ∧
        0 < Real.sqrt ((depth_std_sq w z : ℚ) : ℝ)) ∧
    (∀ (k m : ℕ) (z : List ℚ), z.length = k + 1 + m →
        depth_map (onehot_weights k m) z = z.getD k 0 ∧
        Real.sqrt ((depth_std_sq (onehot_weights k m) z : ℚ) : ℝ) = 1 / 1000) := by
  constructor
  · intro w z hw
    have hs := sum_zipWith_sq_mul_nonneg (depth_map w z) z w hw
    have hrad : (1 / 10 ^ 6 : ℚ) ≤ depth_std_sq w z := by
      rw [depth_std_sq]; linarith
    have hpos : (0 : ℝ) < ((depth_std_sq w z : ℚ) : ℝ) := by
      have : (0 : ℚ) < depth_std_sq w z := lt_of_lt_of_le (by norm_num) hrad
      exact_mod_cast this
    exact ⟨hrad, Real.sqrt_nonneg _, Real.sqrt_pos.mpr hpos⟩
  · intro k m z hz
    refine ⟨depth_map_onehot k m z hz, ?_⟩
    rw [depth_std_sq_onehot k m z hz]
    have h2 : (((1 / 10 ^ 6 : ℚ) : ℝ)) = (1 / 1000 : ℝ) ^ 2 := by push_cast; norm_num
    rw [h2, Real.sqrt_sq (by norm_num : (0 : ℝ) ≤ 1 / 1000)]

/-- C4 amended witness: concrete weights and z values for both parts. -/
theorem depth_std_nonneg_and_concentrated_witness :
    (1 / 10 ^ 6 : ℚ) ≤ depth_std_sq [1, 0] [2, 3] ∧
    depth_map (onehot_weights 0 1) [2, 3] = 2 ∧
    Real.sqrt ((depth_std_sq (onehot_weights 0 1) [2, 3] : ℚ) : ℝ) = 1 / 1000 :=
  ⟨(depth_std_nonneg_and_concentrated.1 [1, 0] [2, 3] (by decide)).1,
   (depth_std_nonneg_and_concentrated.2 0 1 [2, 3] (by decide)).1,
   (depth_std_nonneg_and_concentrated.2 0 1 [2, 3] (by decide)).2⟩

/-- C10: for every ray with positive total weight and a nonnegative
depth-to-weight ratio, the max-guard in raw2outputs bounds the disparity
strictly above 0 and at most 1e10. -/
theorem disp_map_guarded (w z : List ℚ) (h1 : 0 < acc_map w)
    (h2 : 0 ≤ depth_map w z / acc_map w) :
    0 < disp_map w z ∧ disp_map w z ≤ 10 ^ 10 := by
  have hmax : (1 / 10 ^ 10 : ℚ) ≤
      max (1 / 10 ^ 10) (depth_map w z / acc_map w) := le_max_left _ _
  have hpos : (0 : ℚ) < max (1 / 10 ^ 10) (depth_map w z / acc_map w) :=
    lt_of_lt_of_le (by norm_num) hmax
  constructor
  · rw [disp_map]
    exact one_div_pos.mpr hpos
  · rw [disp_map]
    calc 1 / max (1 / 10 ^ 10) (depth_map w z / acc_map w)
        ≤ 1 / (1 / 10 ^ 10 : ℚ) :=
          one_div_le_one_div_of_le (by norm_num) hmax
      _ = 10 ^ 10 := by norm_num

/-- C10 witness: a ray with total weight 2 and predicted depth 6. -/
theorem disp_map_guarded_witness :
    0 < disp_map [1, 1] [2, 4] ∧ disp_map [1, 1] [2, 4] ≤ 10 ^ 10 :=
  disp_map_guarded [1, 1] [2, 4] (by norm_num [acc_map])
    (by norm_num [acc_map, depth_map])

/-! ## Chunking layer (claim C3) -/

/-- Sequential chunked application, modelling the loop
`for i in range(0, n, chunk): ... fn(x[i:i+chunk]) ...` followed by
concatenation of the per-chunk results, shared by `batchify` and
`batchify_rays`.  A zero chunk is a `ValueError` in the source (`range` step
must be nonzero) and is mapped to the empty result here; the transparency
theorems require a positive chunk. -/
def chunked {α β : Type} (f : List α → List β) (chunk : ℕ) (xs : List α) :
    List β :=
  if h : chunk = 0 ∨ xs.isEmpty = true then []
  else f (xs.take chunk) ++ chunked f chunk (xs.drop chunk)
termination_by xs.length
decreasing_by
  simp only [not_or, List.isEmpty_iff] at h
  simp only [List.length_drop]
  exact Nat.sub_lt (List.length_pos.mpr h.2) (Nat.pos_of_ne_zero h.1)

/-- Ray chunking from `batchify_rays` (run_dgdnerf.py lines 105-129): the ray
batch is processed in strictly sequential chunks of `chunk` rays through
`render_rays` and the per-key outputs are concatenated with `torch.cat(·, 0)`.
The per-chunk function is a parameter standing for the global `render_rays`
(which additionally receives the identically-sliced latent codes). -/
def batchify_rays {α β : Type} (render_rays_fn : List α → List β) (chunk : ℕ)
    (rays_flat : List α) : List β :=
  chunked render_rays_fn chunk rays_flat

/-- Point chunking from `batchify` (run_dgdnerf.py lines 33-55): the network
forward `fn` is applied to slices `inputs_pos[i:i+chunk]` (with the time
inputs sliced identically — modelled by lists of combined per-point inputs)
and the two output streams (raw outputs and position deltas) are each
concatenated with `torch.cat(·, 0)`. -/
def batchify {α β γ : Type} (fn : List α → List β × List γ) (chunk : ℕ)
    (inputs : List α) : List β × List γ :=
  if h : chunk = 0 ∨ inputs.isEmpty = true then ([], [])
  else
    ((fn (inputs.take chunk)).1 ++ (batchify fn chunk (inputs.drop chunk)).1,
     (fn (inputs.take chunk)).2 ++ (batchify fn chunk (inputs.drop chunk)).2)
termination_by inputs.length
decreasing_by
  all_goals
    simp only [not_or, List.isEmpty_iff] at h
    simp only [List.length_drop]
    exact Nat.sub_lt (List.length_pos.mpr h.2) (Nat.pos_of_ne_zero h.1)

theorem chunked_map {α β : Type} (g : α → β) (f : List α → List β)
    (hf : ∀ l, f l = l.map g) (chunk : ℕ) (hc : 0 < chunk) :
    ∀ xs : List α, chunked f chunk xs = xs.map g := by
  have H : ∀ (n : ℕ) (xs : List α), xs.length ≤ n →
      chunked f chunk xs = xs.map g := by
    intro n
    induction n with
    | zero =>
      intro xs hx
      have hnil : xs = [] := List.eq_nil_of_length_eq_zero (Nat.le_zero.mp hx)
      subst hnil
      rw [chunked]
      simp
    | succ k ih =>
      intro xs hx
      rw [chunked]
      by_cases hxs : xs = []
      · simp [hxs]
      · rw [dif_neg (by
          push_neg
          exact ⟨Nat.pos_iff_ne_zero.mp hc, by simpa [List.isEmpty_iff] using hxs⟩)]
        have hdrop : (xs.drop chunk).length ≤ k := by
          simp only [List.length_drop]
          have := List.length_pos.mpr hxs
          omega
        rw [hf, ih (xs.drop chunk) hdrop, ← List.map_append,
          List.take_append_drop]
  intro xs
  exact H xs.length xs le_rfl

theorem batchify_map {α β γ : Type} (g1 : α → β) (g2 : α → γ)
    (fn : List α → List β × List γ)
    (hfn : ∀ l, fn l = (l.map g1, l.map g2)) (chunk : ℕ) (hc : 0 < chunk) :
    ∀ xs : List α, batchify fn chunk xs = (xs.map g1, xs.map g2) := by
  have H : ∀ (n : ℕ) (xs : List α), xs.length ≤ n →
      batchify fn chunk xs = (xs.map g1, xs.map g2) := by
    intro n
    induction n with
    | zero =>
      intro xs hx
      have hnil : xs = [] := List.eq_nil_of_length_eq_zero (Nat.le_zero.mp hx)
      subst hnil
      rw [batchify]
      simp
    | succ k ih =>
      intro xs hx
      rw [batchify]
      by_cases hxs : xs = []
      · simp [hxs]
      · rw [dif_neg (by
          push_neg
          exact ⟨Nat.pos_iff_ne_zero.mp hc, by simpa [List.isEmpty_iff] using hxs⟩)]
        have hdrop : (xs.drop chunk).length ≤ k := by
          simp only [List.length_drop]
          have := List.length_pos.mpr hxs
          omega
        rw [hfn, ih (xs.drop chunk) hdrop]
        simp only [← List.map_append, List.take_append_drop]
  intro xs
  exact H xs.length xs le_rfl

/-- C3: chunking is numerically transparent.  For any per-ray function (in
the program, `render_rays`, which acts row-wise on the ray batch) and any two
positive ray-chunk sizes, `batchify_rays` yields identical concatenated
outputs, equal to processing the whole batch in one call; likewise
`batchify` over positive point chunks of a row-wise network forward equals a
single network call. -/
theorem chunking_transparent {R O A B C : Type}
    (render_rays_fn : List R → List O) (g : R → O)
    (hrr : ∀ l, render_rays_fn l = l.map g)
    (c1 c2 : ℕ) (h1 : 0 < c1) (h2 : 0 < c2) (rays_flat : List R)
    (fn : List A → List B × List C) (g1 : A → B) (g2 : A → C)
    (hfn : ∀ l, fn l = (l.map g1, l.map g2)) (c3 : ℕ) (h3 : 0 < c3)
    (inputs : List A) :
    batchify_rays render_rays_fn c1 rays_flat =
        batchify_rays render_rays_fn c2 rays_flat ∧
    batchify_rays render_rays_fn c1 rays_flat = render_rays_fn rays_flat ∧
    batchify fn c3 inputs = fn inputs := by
  refine ⟨?_, ?_, ?_⟩
  · rw [batchify_rays, batchify_rays, chunked_map g render_rays_fn hrr c1 h1,
      chunked_map g render_rays_fn hrr c2 h2]
  · rw [batchify_rays, chunked_map g render_rays_fn hrr c1 h1, hrr]
  · rw [batchify_map g1 g2 fn hfn c3 h3, hfn]

/-- C3 witness: a 3-row batch of per-ray alpha sequences rendered to
compositing weights with chunk sizes 2 and 5, and a 3-point batch through a
row-wise network forward with point-chunk 2. -/
theorem chunking_transparent_witness :
    batchify_rays (List.map raw2outputs_weights) 2 [[1], [0, 1], []] =
        batchify_rays (List.map raw2outputs_weights) 5 [[1], [0, 1], []] ∧
    batchify_rays (List.map raw2outputs_weights) 2 [[1], [0, 1], []] =
        List.map raw2outputs_weights [[1], [0, 1], []] ∧
    batchify (fun l => (l.map (fun x : ℚ => x + 1), l.map (fun x : ℚ => x * 2)))
        2 [1, 2, 3] =
      ([1, 2, 3].map (fun x : ℚ => x + 1), [1, 2, 3].map (fun x : ℚ => x * 2)) :=
  chunking_transparent (List.map raw2outputs_weights) raw2outputs_weights
    (fun l => rfl) 2 5 (by decide) (by decide) [[1], [0, 1], []]
    (fun l => (l.map (fun x : ℚ => x + 1), l.map (fun x : ℚ => x * 2)))
    (fun x => x + 1) (fun x => x * 2) (fun l => rfl) 2 (by decide) [1, 2, 3]

/-! ## Ray-batch record layout (claim C9) -/

def vecToList (v : Vec3) : List ℚ :=
  [v.1, v.2.1, v.2.2]

def optVecToList (v : Option Vec3) : List ℚ :=
  match v with
  | none => []
  | some w => vecToList w

/-- Ray-batch row assembly from `render` (run_dgdnerf.py lines 186-197):
`rays = cat([rays_o, rays_d, near, far, frame_time])`, then `viewdirs` is
appended iff `use_viewdirs`, then the depth-prior triple iff it was supplied.
`time_field` is the per-ray time block: `frame_time * ones_like(rays_d[...,:1])`
broadcasts a scalar time to one column, but broadcasts a latent-code vector
(`use_latent_codes_as_time`) to `ray_bending_latent_size` columns. -/
def assemble_ray_record (o d : Vec3) (near far : ℚ) (time_field : List ℚ)
    (viewdir : Option Vec3) (depth_prior : Option Vec3) : List ℚ :=
  vecToList o ++ vecToList d ++ [near, far] ++ time_field ++
    optVecToList viewdir ++ optVecToList depth_prior

structure ParsedRay where
  rays_o : List ℚ
  rays_d : List ℚ
  near : ℚ
  far : ℚ
  frame_time : ℚ
  viewdirs : Option (List ℚ)
  depth_range : Option (List ℚ)
deriving DecidableEq

/-- Positional consumption of a ray-batch row by `render_rays`
(run_dgdnerf.py lines 584-601): origin at columns 0-2, direction at 3-5,
`bounds = ray_batch[...,6:9]` giving near, far, frame_time; view directions at
9-11 when `use_viewdirs`; the depth-prior triple at 12-14 when view directions
are present and the row is wider than 12 columns, else at 9-11 when the row is
wider than 9 columns. -/
def render_rays_parse (use_viewdirs : Bool) (row : List ℚ) : ParsedRay :=
  { rays_o := row.take 3
    rays_d := (row.drop 3).take 3
    near := row.getD 6 0
    far := row.getD 7 0
    frame_time := row.getD 8 0
    viewdirs := if use_viewdirs then some ((row.drop 9).take 3) else none
    depth_range :=
      if use_viewdirs then
        if 12 < row.length then some ((row.drop 12).take 3) else none
      else
        if 9 < row.length then some ((row.drop 9).take 3) else none }

/-- C9 counterexample: with `use_latent_codes_as_time` (default
`ray_bending_latent_size = 32`) the time block broadcasts to 32 columns, so a
ray record without view directions or depth prior has 40 scalar columns, not
9, 12 or 15. -/
theorem ray_record_width_counterexample :
    (assemble_ray_record ((0 : ℚ), 0, 0) ((0 : ℚ), 0, 1) 2 6
        (List.replicate 32 (0 : ℚ)) none none).length = 40 ∧
    (40 : ℕ) ∉ ([9, 12, 15] : List ℕ) := by
  constructor
  · rfl
  · decide

/-- C9 amended: when the time field is a single scalar column (that is,
whenever `use_latent_codes_as_time` is off), ray records have exactly 9, 12
or 15 columns with the positional layout origin 0-2, direction 3-5, near 6,
far 7, time 8, optional view direction, then optional depth prior, and
`render_rays` recovers every field from its position; in general the record
width is 8 + (time-field width) + 3·viewdirs + 3·depth-prior, so latent codes
of size L widen it to 8+L, 11+L or 14+L. -/
theorem ray_record_layout_amended :
    ∀ (o d : Vec3) (near far t : ℚ) (vd dp : Option Vec3),
      (assemble_ray_record o d near far [t] vd dp).length =
          9 + (if vd.isSome then 3 else 0) + (if dp.isSome then 3 else 0) ∧
      (assemble_ray_record o d near far [t] vd dp).length ∈ ([9, 12, 15] : List ℕ) ∧
      render_rays_parse vd.isSome (assemble_ray_record o d near far [t] vd dp) =
        { rays_o := vecToList o
          rays_d := vecToList d
          near := near
          far := far
          frame_time := t
          viewdirs := vd.map vecToList
          depth_range := dp.map vecToList } ∧
      (∀ time_field : List ℚ,
        (assemble_ray_record o d near far time_field vd dp).length =
          8 + time_field.length + (if vd.isSome then 3 else 0) +
            (if dp.isSome then 3 else 0)) := by
  intro o d near far t vd dp
  refine ⟨?_, ?_, ?_, ?_⟩
  · rcases vd with _ | v <;> rcases dp with _ | p <;>
      simp [assemble_ray_record, vecToList, optVecToList]
  · rcases vd with _ | v <;> rcases dp with _ | p <;>
      simp [assemble_ray_record, vecToList, optVecToList]
  · rcases vd with _ | v <;> rcases dp with _ | p <;>
      simp [assemble_ray_record, vecToList, optVecToList, render_rays_parse,
        List.getD]
  · intro time_field
    rcases vd with _ | v <;> rcases dp with _ | p <;>
      simp [assemble_ray_record, vecToList, optVecToList] <;> ring

/-! ## Early-exit configuration validation in train (claim C6) -/

inductive TrainEvent where
  | warnUnknownDataset
  | assertionFailureTimes
  | warnInvalidDepthLossType
  | warnNoDepthMaps
  | makeExpDir
deriving DecidableEq

/-- Control-flow skeleton of the `train` entry point up to the creation of
the experiment directory (run_dgdnerf.py lines 867-947), in source order:
the dataset-type dispatch warns and returns on an unknown tag (line 912);
the time-range assertions for blender and deepdeform data may abort (lines
916-921); an invalid `depth_loss_type` warns and returns (lines 923-925);
`comp_depth = depth_loss_weight > 0 or use_depth_guided_sampling` combined
with absent depth maps warns and returns (lines 926-929) — depth maps are
`None` exactly for the blender loader; only then does the surviving path
reach `os.makedirs(os.path.join(basedir, expname))` (line 947).  The result
is the trace of these observable events; every exit branch produces a
printed warning and a plain `return` (no exception, no directory). -/
def train_prelude (dataset_type : String) (min_time max_time : ℚ)
    (depth_loss_type : String) (depth_loss_weight : ℚ)
    (use_depth_guided_sampling : Bool) : List TrainEvent :=
  if ¬(dataset_type = "blender" ∨ dataset_type = "deepdeform" ∨
        dataset_type = "owndataset") then
    [.warnUnknownDataset]
  else if dataset_type = "blender" ∧ ¬(min_time = 0 ∧ max_time = 1) then
    [.assertionFailureTimes]
  else if dataset_type = "deepdeform" ∧ ¬(0 ≤ min_time ∧ max_time ≤ 1) then
    [.assertionFailureTimes]
  else if ¬(depth_loss_type = "mse" ∨ depth_loss_type = "gnll") then
    [.warnInvalidDepthLossType]
  else if dataset_type = "blender" ∧
      (0 < depth_loss_weight ∨ use_depth_guided_sampling = true) then
    [.warnNoDepthMaps]
  else
    [.makeExpDir]

/-- C6 counterexample: the claim quantifies over a "nonzero depth-loss
weight", but the code tests `depth_loss_weight > 0`; with the nonzero weight
-1 on a dataset without depth maps, `train` does not warn and proceeds to
create the experiment directory. -/
theorem train_soft_exit_counterexample :
    train_prelude "blender" 0 1 "mse" (-1) false = [.makeExpDir] ∧
    TrainEvent.warnNoDepthMaps ∉ train_prelude "blender" 0 1 "mse" (-1) false ∧
    TrainEvent.makeExpDir ∈ train_prelude "blender" 0 1 "mse" (-1) false := by
  refine ⟨by decide, by decide, by decide⟩

/-- C6 amended: for each of the three misconfigurations — unknown dataset
type tag, `depth_loss_type` outside mse/gnll, and depth supervision (a
positive depth-loss weight, or depth-guided sampling) requested while no
depth maps were loaded — `train` emits exactly a printed warning and returns
normally: the event trace is the singleton warning, so neither the
experiment-directory creation nor an assertion failure occurs. -/
theorem train_soft_exit_amended :
    (∀ (dt : String) (mt Mt : ℚ) (dlt : String) (dlw : ℚ) (dgs : Bool),
        ¬(dt = "blender" ∨ dt = "deepdeform" ∨ dt = "owndataset") →
        train_prelude dt mt Mt dlt dlw dgs = [.warnUnknownDataset]) ∧
    (∀ (dt : String) (mt Mt : ℚ) (dlt : String) (dlw : ℚ) (dgs : Bool),
        (dt = "blender" ∨ dt = "deepdeform" ∨ dt = "owndataset") →
        (dt = "blender" → mt = 0 ∧ Mt = 1) →
        (dt = "deepdeform" → 0 ≤ mt ∧ Mt ≤ 1) →
        ¬(dlt = "mse" ∨ dlt = "gnll") →
        train_prelude dt mt Mt dlt dlw dgs = [.warnInvalidDepthLossType]) ∧
    (∀ (mt Mt dlw : ℚ) (dlt : String) (dgs : Bool),
        mt = 0 → Mt = 1 →
        (dlt = "mse" ∨ dlt = "gnll") →
        (0 < dlw ∨ dgs = true) →
        train_prelude "blender" mt Mt dlt dlw dgs = [.warnNoDepthMaps]) := by
  refine ⟨?_, ?_, ?_⟩
  · intro dt mt Mt dlt dlw dgs h
    rw [train_prelude, if_pos h]
  · intro dt mt Mt dlt dlw dgs hmem hbl hdd hdlt
    rw [train_prelude, if_neg (not_not_intro hmem),
      if_neg (fun h => h.2 (hbl h.1)), if_neg (fun h => h.2 (hdd h.1)),
      if_pos hdlt]
  · intro mt Mt dlw dlt dgs hmt hMt hdlt hreq
    rw [train_prelude, if_neg (not_not_intro (Or.inl rfl)),
      if_neg (fun h => h.2 ⟨hmt, hMt⟩),
      if_neg (fun h => absurd h.1 (by decide)),
      if_neg (fun h => h hdlt), if_pos ⟨rfl, hreq⟩]

/-- C6 amended witness: each of the three misconfigurations at a concrete
input. -/
theorem train_soft_exit_amended_witness :
    train_prelude "deepvoxels" 0 1 "mse" 0 false = [.warnUnknownDataset] ∧
    train_prelude "owndataset" 0 1 "huber" 0 false = [.warnInvalidDepthLossType] ∧
    train_prelude "blender" 0 1 "gnll" 0 true = [.warnNoDepthMaps] :=
  ⟨train_soft_exit_amended.1 "deepvoxels" 0 1 "mse" 0 false (by decide),
   train_soft_exit_amended.2.1 "owndataset" 0 1 "huber" 0 false (by decide)
     (fun h => absurd h (by decide)) (fun h => absurd h (by decide)) (by decide),
   train_soft_exit_amended.2.2 0 1 0 "gnll" true rfl rfl (Or.inr rfl) (Or.inr rfl)⟩

end DGDNeRF
